import Mathlib

/-!
Verification development for the naive-supervised training engine
(`src/TRAIN/NaiveSupervisedNetworks.hpp`, `src/TRAIN/SupervisedNetworksBases.hpp`).

The C++ code is shallowly embedded: machine integers are modelled as
`Nat`/`Int` with explicit reductions modulo `2^32`/`2^64` where the source
performs unsigned or two's-complement wrap-around, and the arithmetic right
shift `SHIFT_DECREASE` (which resolves to `>>` on signed 64-bit values) is
modelled as floor division by a power of two.
-/

/-- `Index` arithmetic in the source is `uint32_t`; products and sums wrap
modulo `2^32`. -/
def M32 : Nat := 4294967296

/-- 64-bit modulus for `int64_t` (`MatrixDigraph::Value`) two's-complement
wrap-around. -/
def M64 : Nat := 18446744073709551616

/-- Reduce an integer to the representable range of `int64_t`
(two's complement): the unique value in `[-2^63, 2^63)` congruent mod `2^64`. -/
def wrap64 (v : Int) : Int :=
  (v + 9223372036854775808) % 18446744073709551616 - 9223372036854775808

/-- `SHIFT_DECREASE` resolves to `>>` (`Utilities.hpp` line 84); on signed
64-bit operands this is the sign-preserving arithmetic shift, i.e. floor
division by `2^c`. -/
def shiftDecrease (v : Int) (c : Nat) : Int := Int.fdiv v (2 ^ c)

/-- `ShiftCount` constant of `LogarithmicMatrixDigraph::applyWeights`. -/
def ShiftCount : Nat := 15

/-- `WeightsCrafter::MinimumWeight` (= `int16_t` minimum). -/
def MinimumWeight : Int := -32768

/-- `WeightsCrafter::MaximumWeight` (= `int16_t` maximum). -/
def MaximumWeight : Int := 32767

/-- `WeightsCrafter::WeightsCardinality` = 65536. -/
def WeightsCardinality : Nat := 65536

/-- `InvalidIndex` = `std::numeric_limits<uint32_t>::max()`. -/
def InvalidIndex : Nat := 4294967295

/-!
## `LogarithmicMatrixDigraph` constructor: layer widths and weights count

The constructor loop
(`NaiveSupervisedNetworks.hpp` lines 318-337) starts from
`layerValuesCount = rowsCount * 2` and repeatedly replaces a width `n ≥ 2`
by `(n + 1) / 2`, accumulating the total number of internal values.
The recursion is embedded with an explicit fuel argument (first parameter);
the width strictly decreases, so fuel equal to the starting width suffices.
-/

/-- Total internal value count accumulated by the constructor loop of
`LogarithmicMatrixDigraph`, starting from width `w` (second argument), with
fuel as the first argument. -/
def layerValuesTotalGo : Nat → Nat → Nat
  | 0, _ => 0
  | _ + 1, 0 => 0
  | _ + 1, 1 => 1
  | f + 1, n + 2 => (n + 2) + layerValuesTotalGo f ((n + 3) / 2)

/-- `valuesCount` computed by the `LogarithmicMatrixDigraph` constructor for
first-layer width `w` (the sum of all layer widths down to the final width 1). -/
def layerValuesTotal (w : Nat) : Nat := layerValuesTotalGo w w

/-- `LogarithmicMatrixDigraph::requiredWeightsCount()` as set by the
constructor: `(myInputsCount * 2) + valuesCount - 1`, in `uint32_t`
arithmetic (`myInputsCount = rowsCount * columnsCount` wraps mod `2^32`, and
the subtraction of 1 wraps as well). -/
def requiredWeightsCount (R C : Nat) : Nat :=
  ((R * C % M32) * 2 % M32 + layerValuesTotal (R * 2 % M32) + (M32 - 1)) % M32

/-- Spec-side layer-width sequence `L_i` of spec section 4.1:
`L_0 = w0` and, for `i > 0`, `L_i = 1` if `L_{i-1} = 1` else
`⌈L_{i-1} / 2⌉ = (L_{i-1} + 1) / 2`. -/
def Lwidth (w0 : Nat) : Nat → Nat
  | 0 => w0
  | i + 1 => if Lwidth w0 i = 1 then 1 else (Lwidth w0 i + 1) / 2

/-- Number of halving steps needed to bring a layer width down to 1
(fuelled like `layerValuesTotalGo`). -/
def layerDepthGo : Nat → Nat → Nat
  | 0, _ => 0
  | _ + 1, 0 => 0
  | _ + 1, 1 => 0
  | f + 1, n + 2 => layerDepthGo f ((n + 3) / 2) + 1

/-- Index of the last (width-1) layer in the sequence `L_0, L_1, …` starting
from width `w`. -/
def layerDepth (w : Nat) : Nat := layerDepthGo w w

/-- The weights-count formula exactly as the spec states it:
`2·R·C + (Σ_{i≥1} L_i) − 1`, the sum running over the interior layers
`i = 1 .. layerDepth (2R)`. -/
def specRequiredWeightsCountAsStated (R C : Nat) : Nat :=
  2 * R * C + (Finset.Icc 1 (layerDepth (2 * R))).sum (fun i => Lwidth (2 * R) i) - 1

/-!
## `LogarithmicMatrixDigraph::applyWeights` (lines 360-432)

The weight vector is modelled as a total function `Nat → Int` (the digraph
indexes into the bound crafter's weight array with a running index).
Inputs are `uint16_t` values, modelled as `Nat`.
-/

/-- Inner accumulation loop of the input layer:
`for (result = 0; …; ++ingressIndex, ++weightsIndex) result += myInputs[ingressIndex] * weights[weightsIndex];`
The accumulator is an `int64_t`, so every addition wraps to 64 bits. -/
def rowSumAux (w : Nat → Int) : Int → Nat → List Nat → Int
  | acc, _, [] => acc
  | acc, wi, x :: xs => rowSumAux w (wrap64 (acc + (x : Int) * w wi)) (wi + 1) xs

/-- Outer `while (ingressIndex != myInputsCount)` loop of `applyWeights`:
each row of `C` inputs is consumed twice, producing two egress values with
two consecutive blocks of `C` weights.  The loop runs once per row (`r`
counts the remaining rows). -/
def inputLayer (w : Nat → Int) (C : Nat) : Nat → Nat → List Nat → List Int
  | _, 0, _ => []
  | wi, r + 1, inputs =>
      rowSumAux w 0 wi (inputs.take C) ::
      rowSumAux w 0 (wi + C) (inputs.take C) ::
      inputLayer w C (wi + 2 * C) r (inputs.drop C)

/-- One pass of the interior reduction loop: each adjacent ingress pair
`(v1, v2)` is mapped to `((v1 * w_a) + (v2 * w_b)) >> 15` (each `int64_t`
product and the sum wrap to 64 bits), and an odd last ingress value is
forwarded alone as `(v * w) >> 15`. -/
def reduceLayer (w : Nat → Int) : Nat → List Int → List Int
  | _, [] => []
  | wi, [v] => [shiftDecrease (wrap64 (v * w wi)) ShiftCount]
  | wi, v1 :: v2 :: vs =>
      shiftDecrease (wrap64 (wrap64 (v1 * w wi) + wrap64 (v2 * w (wi + 1)))) ShiftCount ::
      reduceLayer w (wi + 2) vs

/-- Outer interior loop of `applyWeights`: keep reducing the current layer
until a single sink value remains.  Fuel (first `Nat` argument) bounds the
number of layers; each layer consumes as many weights as it has ingress
values. -/
def reduceToSinkGo (w : Nat → Int) : Nat → Nat → List Int → Int
  | 0, _, _ => 0
  | _ + 1, _, [] => 0
  | _ + 1, _, [v] => v
  | f + 1, wi, v1 :: v2 :: vs =>
      reduceToSinkGo w f (wi + (vs.length + 2)) (reduceLayer w wi (v1 :: v2 :: vs))

/-- `LogarithmicMatrixDigraph::applyWeights` followed by `uniqueSinkValue()`:
build the first internal layer from the inputs (two values per row), then
reduce layer by layer to the unique sink value.  After the input layer the
running weights index stands at `2·R·C`. -/
def applyWeights (R C : Nat) (w : Nat → Int) (inputs : List Nat) : Int :=
  let layer0 := inputLayer w C 0 R inputs
  reduceToSinkGo w layer0.length (2 * R * C) layer0

/-!
Spec-side pipeline (spec section 4.1), stated with a plain sum per row and a
single 64-bit reduction per egress value, to be proved equal to the
code-side `applyWeights`.
-/

/-- Spec-side plain dot product `Σ_c input[r,c] * weight[k]` (no intermediate
wrap; the spec calls the 64-bit result "the plain sum"). -/
def dotRow (w : Nat → Int) : Nat → List Nat → Int
  | _, [] => 0
  | wi, x :: xs => (x : Int) * w wi + dotRow w (wi + 1) xs

/-- Spec-side layer 0: for each row, two values, each the plain 64-bit sum of
the row's inputs against a separate block of `C` weights. -/
def specLayer0 (w : Nat → Int) (C : Nat) : Nat → List (List Nat) → List Int
  | _, [] => []
  | wi, row :: rows =>
      wrap64 (dotRow w wi row) ::
      wrap64 (dotRow w (wi + C) row) ::
      specLayer0 w C (wi + 2 * C) rows

/-- Spec-side single reduction pass:
`egress = ((v_2j * w_a) + (v_2j+1 * w_b)) >> 15` on 64-bit values, with an
odd last value forwarded as `(v * w) >> 15`. -/
def specReduceOnce (w : Nat → Int) : Nat → List Int → List Int
  | _, [] => []
  | wi, [v] => [shiftDecrease (wrap64 (v * w wi)) ShiftCount]
  | wi, v1 :: v2 :: vs =>
      shiftDecrease (wrap64 (v1 * w wi + v2 * w (wi + 1))) ShiftCount ::
      specReduceOnce w (wi + 2) vs

theorem specReduceOnce_length (w : Nat → Int) :
    ∀ (vs : List Int) (wi : Nat), (specReduceOnce w wi vs).length = (vs.length + 1) / 2
  | [], _ => by simp [specReduceOnce]
  | [_], _ => by simp [specReduceOnce]
  | _ :: _ :: vs, wi => by
      simp only [specReduceOnce, List.length_cons, specReduceOnce_length w vs (wi + 2)]
      omega

/-- Spec-side sink: repeatedly apply `specReduceOnce` until a single value
remains (structural recursion on the strictly decreasing layer width). -/
def specSink (w : Nat → Int) : Nat → List Int → Int
  | _, [] => 0
  | _, [v] => v
  | wi, v1 :: v2 :: vs =>
      specSink w (wi + (v1 :: v2 :: vs).length) (specReduceOnce w wi (v1 :: v2 :: vs))
termination_by _ vs => vs.length
decreasing_by
  simp only [specReduceOnce_length, List.length_cons]
  omega

/-!  ## Basic wrap64 lemmas  -/

theorem wrap64_zero : wrap64 0 = 0 := by decide

theorem wrap64_add_left (a b : Int) : wrap64 (wrap64 a + b) = wrap64 (a + b) := by
  unfold wrap64
  omega

theorem wrap64_add_right (a b : Int) : wrap64 (a + wrap64 b) = wrap64 (a + b) := by
  unfold wrap64
  omega

theorem wrap64_add_both (a b : Int) : wrap64 (wrap64 a + wrap64 b) = wrap64 (a + b) := by
  rw [wrap64_add_left, wrap64_add_right]

/-!  ## Correspondence lemmas: code-side pipeline = spec-side pipeline  -/

theorem rowSumAux_eq (w : Nat → Int) :
    ∀ (xs : List Nat) (a : Int) (wi : Nat),
      rowSumAux w (wrap64 a) wi xs = wrap64 (a + dotRow w wi xs)
  | [], a, wi => by simp [rowSumAux, dotRow]
  | x :: xs, a, wi => by
      simp only [rowSumAux, dotRow, wrap64_add_left]
      rw [rowSumAux_eq w xs (a + (x : Int) * w wi) (wi + 1), Int.add_assoc]

theorem rowSumAux_zero_eq (w : Nat → Int) (xs : List Nat) (wi : Nat) :
    rowSumAux w 0 wi xs = wrap64 (dotRow w wi xs) := by
  have h := rowSumAux_eq w xs 0 wi
  rwa [wrap64_zero, Int.zero_add] at h

theorem inputLayer_eq_specLayer0 (w : Nat → Int) (C : Nat) :
    ∀ (rows : List (List Nat)) (wi : Nat),
      (∀ row ∈ rows, row.length = C) →
      inputLayer w C wi rows.length rows.flatten = specLayer0 w C wi rows
  | [], _, _ => rfl
  | row :: rows, wi, h => by
      have hrow : row.length = C := h row (List.mem_cons_self row rows)
      have htake : (row ++ rows.flatten).take C = row := by
        rw [← hrow]; exact List.take_left row rows.flatten
      have hdrop : (row ++ rows.flatten).drop C = rows.flatten := by
        rw [← hrow]; exact List.drop_left row rows.flatten
      simp only [List.length_cons, List.flatten_cons, inputLayer, specLayer0, htake, hdrop]
      rw [rowSumAux_zero_eq, rowSumAux_zero_eq,
        inputLayer_eq_specLayer0 w C rows (wi + 2 * C)
          (fun r hr => h r (List.mem_cons_of_mem row hr))]

theorem reduceLayer_eq_specReduceOnce (w : Nat → Int) :
    ∀ (vs : List Int) (wi : Nat), reduceLayer w wi vs = specReduceOnce w wi vs
  | [], _ => rfl
  | [_], _ => rfl
  | v1 :: v2 :: vs, wi => by
      simp only [reduceLayer, specReduceOnce, wrap64_add_both]
      rw [reduceLayer_eq_specReduceOnce w vs (wi + 2)]

theorem reduceToSinkGo_eq_specSink (w : Nat → Int) :
    ∀ (f : Nat) (vs : List Int) (wi : Nat), vs.length ≤ f →
      reduceToSinkGo w f wi vs = specSink w wi vs
  | 0, [], _, _ => by simp [reduceToSinkGo, specSink]
  | _ + 1, [], _, _ => by simp [reduceToSinkGo, specSink]
  | _ + 1, [_], _, _ => by simp [reduceToSinkGo, specSink]
  | f + 1, v1 :: v2 :: vs, wi, h => by
      simp only [reduceToSinkGo, specSink, List.length_cons]
      rw [reduceLayer_eq_specReduceOnce]
      exact reduceToSinkGo_eq_specSink w f (specReduceOnce w wi (v1 :: v2 :: vs))
        (wi + (vs.length + 2))
        (by simp only [specReduceOnce_length, List.length_cons]
            simp only [List.length_cons] at h
            omega)

theorem inputLayer_length (w : Nat → Int) (C : Nat) :
    ∀ (r : Nat) (wi : Nat) (inputs : List Nat),
      (inputLayer w C wi r inputs).length = 2 * r
  | 0, _, _ => rfl
  | r + 1, wi, inputs => by
      simp only [inputLayer, List.length_cons,
        inputLayer_length w C r (wi + 2 * C) (inputs.drop C)]
      omega

/-- Claim C1: for every `LogarithmicMatrixDigraph` with `R ≥ 2` rows and
`C ≥ 2` columns, `applyWeights()` computes, per input row, two layer-0
values equal to the plain 64-bit sums of the row against two separate
weight blocks, and then repeatedly reduces adjacent pairs
`((v_2j * w_a) + (v_2j+1 * w_b)) >> 15` (odd last value `(v * w) >> 15`,
arithmetic shift) until a single sink remains; in particular for R=2, C=2,
inputs `[[1,2],[3,4]]` and all weights 1, the sink is 0. -/
theorem applyWeights_is_layered_pipeline (R C : Nat) (w : Nat → Int)
    (rows : List (List Nat)) (hR : 2 ≤ R) (hC : 2 ≤ C)
    (hlen : rows.length = R) (hrow : ∀ row ∈ rows, row.length = C) :
    applyWeights R C w rows.flatten = specSink w (2 * R * C) (specLayer0 w C 0 rows) ∧
    applyWeights 2 2 (fun _ => 1) [1, 2, 3, 4] = 0 := by
  constructor
  · unfold applyWeights
    rw [← hlen, inputLayer_eq_specLayer0 w C rows 0 hrow]
    exact reduceToSinkGo_eq_specSink w _ _ _ (le_refl _)
  · decide

/-- Witness for `applyWeights_is_layered_pipeline` at R=2, C=2,
inputs `[[1,2],[3,4]]`, all weights 1. -/
theorem applyWeights_is_layered_pipeline_witness :
    applyWeights 2 2 (fun _ => 1) ([[1, 2], [3, 4]] : List (List Nat)).flatten =
      specSink (fun _ => 1) (2 * 2 * 2) (specLayer0 (fun _ => 1) 2 0 [[1, 2], [3, 4]]) ∧
    applyWeights 2 2 (fun _ => 1) [1, 2, 3, 4] = 0 :=
  applyWeights_is_layered_pipeline 2 2 (fun _ => 1) [[1, 2], [3, 4]]
    (by decide) (by decide) (by decide) (by decide)

/-- Claim C3: for R = 5, C = 5 the required weights count is 70. -/
theorem requiredWeightsCount_five_five : requiredWeightsCount 5 5 = 70 := by decide

/-!  ## Claim C2: layer sum lemmas  -/

theorem layerValuesTotal_ge (w : Nat) (h : 1 ≤ w) : w ≤ layerValuesTotal w := by
  match w, h with
  | 1, _ => decide
  | n + 2, _ =>
      show n + 2 ≤ layerValuesTotalGo (n + 2) (n + 2)
      simp only [layerValuesTotalGo]
      omega

theorem Lwidth_succ (w : Nat) (hw : 2 ≤ w) :
    ∀ i, Lwidth w (i + 1) = Lwidth ((w + 1) / 2) i
  | 0 => by
      simp only [Lwidth]
      rw [if_neg (by omega)]
  | i + 1 => by
      show (if Lwidth w (i + 1) = 1 then 1 else (Lwidth w (i + 1) + 1) / 2) = _
      rw [Lwidth_succ w hw i]
      rfl

theorem layerValuesTotalGo_eq_sum :
    ∀ (f w : Nat), 1 ≤ w → w ≤ f →
      layerValuesTotalGo f w =
        (Finset.range (layerDepthGo f w + 1)).sum (fun i => Lwidth w i)
  | 0, _, h1, h2 => absurd h2 (by omega)
  | _ + 1, 0, h1, _ => absurd h1 (by omega)
  | f + 1, 1, _, _ => by
      simp [layerValuesTotalGo, layerDepthGo, Lwidth]
  | f + 1, n + 2, _, h2 => by
      have hle : (n + 3) / 2 ≤ f := by omega
      have IH := layerValuesTotalGo_eq_sum f ((n + 3) / 2) (by omega) hle
      simp only [layerValuesTotalGo, layerDepthGo]
      rw [Finset.sum_range_succ']
      have hshift : ∀ i, Lwidth (n + 2) (i + 1) = Lwidth ((n + 3) / 2) i := by
        intro i
        have := Lwidth_succ (n + 2) (by omega) i
        simpa using this
      rw [Finset.sum_congr rfl (fun i _ => hshift i), ← IH]
      show n + 2 + layerValuesTotalGo f ((n + 3) / 2) =
        layerValuesTotalGo f ((n + 3) / 2) + Lwidth (n + 2) 0
      show _ = layerValuesTotalGo f ((n + 3) / 2) + (n + 2)
      omega

theorem layerValuesTotal_eq_sum (w : Nat) (h : 1 ≤ w) :
    layerValuesTotal w = (Finset.range (layerDepth w + 1)).sum (fun i => Lwidth w i) :=
  layerValuesTotalGo_eq_sum w w h (le_refl w)

/-- Counterexample to claim C2: for R = 3, C = 2 the code computes 23 while
the spec formula `2·R·C + (Σ_{i≥1} L_i) − 1` yields 17 (the sum must also
include layer 0). -/
theorem requiredWeightsCount_three_two_counterexample :
    requiredWeightsCount 3 2 ≠ specRequiredWeightsCountAsStated 3 2 ∧
    requiredWeightsCount 3 2 = 23 ∧ specRequiredWeightsCountAsStated 3 2 = 17 := by
  refine ⟨?_, by decide, ?_⟩ <;> decide

/-- Claim C2 (amended): `requiredWeightsCount()` equals
`2·R·C + (Σ_{i≥0} L_i) − 1`, the sum running over all layers including
layer 0 of width `2R`; for R = 3, C = 2 (widths 6, 3, 2, 1) it equals
`12 + (6+3+2+1) − 1 = 23`.  (Hypotheses keep the `uint32_t` arithmetic of
the constructor away from wrap-around.) -/
theorem requiredWeightsCount_eq_sum_all_layers (R C : Nat) (h1 : 1 ≤ R)
    (h2 : 2 * R < M32)
    (h3 : 2 * (R * C) + layerValuesTotal (2 * R) < M32) :
    requiredWeightsCount R C =
      2 * (R * C) + (Finset.range (layerDepth (2 * R) + 1)).sum (fun i => Lwidth (2 * R) i) - 1 := by
  have hT : 2 * R ≤ layerValuesTotal (2 * R) := layerValuesTotal_ge (2 * R) (by omega)
  rw [← layerValuesTotal_eq_sum (2 * R) (by omega)]
  unfold requiredWeightsCount
  have e2 : R * 2 % M32 = 2 * R := by simp only [M32] at *; omega
  rw [e2]
  simp only [M32] at *
  omega

/-- Witness for `requiredWeightsCount_eq_sum_all_layers` at R = 3, C = 2. -/
theorem requiredWeightsCount_eq_sum_all_layers_witness :
    requiredWeightsCount 3 2 =
      2 * (3 * 2) + (Finset.range (layerDepth (2 * 3) + 1)).sum (fun i => Lwidth (2 * 3) i) - 1 :=
  requiredWeightsCount_eq_sum_all_layers 3 2 (by decide) (by decide) (by decide)

/-!  ## Claim C4: concrete saturated pipeline values  -/

/-- Counterexample to claim C4: for R = 2, C = 2, all inputs 40000 and all
weights +30000, the sink is not 268066406. -/
theorem applyWeights_forty_thousand_ne_claimed :
    applyWeights 2 2 (fun _ => 30000) [40000, 40000, 40000, 40000] ≠ 268066406 := by
  decide

/-- Claim C4 (amended): for R = 2, C = 2, all inputs 40000 and all weights
+30000, the sink value is 8046627044
(layer 0 = four times 2400000000; next layer = two times
`(2400000000·30000·2) >> 15 = 4394531250`; sink =
`(4394531250·30000·2) >> 15 = 8046627044`). -/
theorem applyWeights_forty_thousand_value :
    applyWeights 2 2 (fun _ => 30000) [40000, 40000, 40000, 40000] = 8046627044 := by
  decide

/-!  ## Claim C5: `SupervisedNetworkEvent::desiredMatrixDigraphRank` (lines 573-591)

The digraphs are represented by their `uniqueSinkValue()` outputs. -/

/-- `desiredMatrixDigraphRank`: 0 if there is no desired matrix digraph,
else the count of digraphs whose sink value is `≥` the desired one's. -/
def desiredMatrixDigraphRank (sinks : List Int) (dIdx : Nat) : Nat :=
  if dIdx = InvalidIndex then 0
  else sinks.countP (fun v => decide (sinks.getD dIdx 0 ≤ v))

/-- Claim C5: for a valid winner index the rank is the number of digraphs
(winner included) whose sink is `≥` the winner's, and `1 ≤ rank ≤ count`. -/
theorem desiredMatrixDigraphRank_spec (sinks : List Int) (dIdx : Nat)
    (hv : dIdx < sinks.length) (hne : dIdx ≠ InvalidIndex) :
    desiredMatrixDigraphRank sinks dIdx =
      (sinks.filter (fun v => decide (sinks.getD dIdx 0 ≤ v))).length ∧
    1 ≤ desiredMatrixDigraphRank sinks dIdx ∧
    desiredMatrixDigraphRank sinks dIdx ≤ sinks.length := by
  unfold desiredMatrixDigraphRank
  rw [if_neg hne]
  refine ⟨List.countP_eq_length_filter _ _, ?_, List.countP_le_length _⟩
  have hmem : sinks.getD dIdx 0 ∈ sinks := by
    rw [List.getD_eq_getElem sinks 0 hv]
    exact List.getElem_mem hv
  have hpos : 0 < sinks.countP (fun v => decide (sinks.getD dIdx 0 ≤ v)) :=
    List.countP_pos_iff.mpr ⟨sinks.getD dIdx 0, hmem, by simp⟩
  omega

/-- Witness for `desiredMatrixDigraphRank_spec`: two digraphs with equal
sinks 5, winner index 1, rank 2 (spec's ranking-tie scenario). -/
theorem desiredMatrixDigraphRank_spec_witness :
    desiredMatrixDigraphRank [5, 5] 1 = 2 ∧
    1 ≤ desiredMatrixDigraphRank [5, 5] 1 ∧
    desiredMatrixDigraphRank [5, 5] 1 ≤ 2 := by
  have h := desiredMatrixDigraphRank_spec [5, 5] 1 (by decide) (by decide)
  exact ⟨by decide, h.2.1, by simpa using h.2.2⟩


/-!
## `GeometricWeightsCrafter` (NaiveSupervisedNetworks.hpp lines 44-293)

Randomness is modelled by an oracle of three streams: successive raw
integer draws of the `std::mt19937_64` engine, successive boolean draws of
`myRandomBoolean`, and successive results of `std::geometric_distribution`.
Each stream is consumed through an explicit cursor carried in the state.
The `double` P-numerator is modelled over `ℚ` (`0.99` as `99/100`).
-/

/-- The three random streams a crafter draws from. -/
structure RandomOracle where
  ints : Nat → Nat
  bools : Nat → Bool
  geoms : Nat → Nat

/-- State of a `GeometricWeightsCrafter` (weights of the `WeightsCrafter`
base class included). -/
structure Crafter where
  weightsCount : Nat
  weights : List Int
  bestWeights : List Int
  alterIndexes : List Nat
  alterDirections : List Bool
  pNumerator : ℚ
  maxWeightsInterval : Nat
  maxWeightDelta : Nat
  crawl : Bool
  previouslyImproved : Bool
  intCursor : Nat
  boolCursor : Nat
  geomCursor : Nat
deriving DecidableEq

/-- `GeometricWeightsCrafter::AlteringsPNumeratorMultiplier` = 0.99. -/
def AlteringsPNumeratorMultiplier : ℚ := 99 / 100

/-- `GeometricWeightsCrafter::myAlteringsMinimumPNumerator` = 0.1. -/
def AlteringsMinimumPNumerator : ℚ := 1 / 10

/-- `GeometricWeightsCrafter::MaximumWeightDelta` = `WeightsCardinality - 1`. -/
def MaximumWeightDelta : Nat := WeightsCardinality - 1

/-- `GeometricWeightsCrafter::MaximumWeightDeltaDelta` = `MaximumWeightDelta / 1000`. -/
def MaximumWeightDeltaDelta : Nat := MaximumWeightDelta / 1000

/-- `WeightsCrafter::bringBackBestWeights()`: copy the best weights back
into the current weights. -/
def bringBackBestWeights (s : Crafter) : Crafter := { s with weights := s.bestWeights }

/-- Index-collection loop of `randomizeAlterings` for `maxInt > 1`:
starting from a random offset, repeatedly append the current index and a
random direction, then advance by an independent stride in `[1, maxInt]`.
The fuel (first argument) is instantiated with `weightsCount`, which the
strictly increasing index never needs to exceed.  Returns the chosen
indexes, the chosen directions and the final two cursors. -/
def collectAlterIndexes (O : RandomOracle) (n maxInt : Nat) :
    Nat → Nat → Nat → Nat → List Nat × List Bool × Nat × Nat
  | 0, _, ic, bc => ([], [], ic, bc)
  | f + 1, wi, ic, bc =>
      if wi < n then
        let r := collectAlterIndexes O n maxInt f (wi + (O.ints ic % maxInt + 1)) (ic + 1) (bc + 1)
        (wi :: r.1, O.bools bc :: r.2.1, r.2.2.1, r.2.2.2)
      else ([], [], ic, bc)

/-- `GeometricWeightsCrafter::randomizeAlterings()` (lines 108-150):
reset `crawl` and `previouslyImproved`, decay or reset the P numerator,
draw a geometrically distributed maximum interval clamped to
`[1, weightsCount]`, then either walk random strides through the indexes
(interval > 1) or select every index, with a random direction each. -/
def randomizeAlterings (O : RandomOracle) (s : Crafter) : Crafter :=
  let p0 := s.pNumerator * AlteringsPNumeratorMultiplier
  let p := if p0 < AlteringsMinimumPNumerator
           then (s.weightsCount : ℚ) * AlteringsPNumeratorMultiplier else p0
  let maxInt := if s.weightsCount < O.geoms s.geomCursor + 1
                then s.weightsCount else O.geoms s.geomCursor + 1
  if 1 < maxInt then
    let r := collectAlterIndexes O s.weightsCount maxInt s.weightsCount
               (O.ints s.intCursor % maxInt) (s.intCursor + 1) s.boolCursor
    { s with crawl := false, previouslyImproved := false, pNumerator := p,
             maxWeightsInterval := maxInt,
             alterIndexes := r.1, alterDirections := r.2.1,
             intCursor := r.2.2.1, boolCursor := r.2.2.2,
             geomCursor := s.geomCursor + 1 }
  else
    { s with crawl := false, previouslyImproved := false, pNumerator := p,
             maxWeightsInterval := maxInt,
             alterIndexes := List.range s.weightsCount,
             alterDirections := (List.range s.weightsCount).map
               (fun i => O.bools (s.boolCursor + i)),
             intCursor := s.intCursor, boolCursor := s.boolCursor + s.weightsCount,
             geomCursor := s.geomCursor + 1 }

/-- Crawl branch of `alterWeights` (lines 157-171): move each selected
weight by ±1 in its direction, skipping saturated weights.  Returns the
`noWeightWasAltered` flag and the new weights. -/
def crawlAlter : List Int → List (Nat × Bool) → Bool × List Int
  | ws, [] => (true, ws)
  | ws, (wi, dir) :: rest =>
      if dir then
        if ws.getD wi 0 < MaximumWeight then
          (false, (crawlAlter (ws.set wi (ws.getD wi 0 + 1)) rest).2)
        else crawlAlter ws rest
      else
        if MinimumWeight < ws.getD wi 0 then
          (false, (crawlAlter (ws.set wi (ws.getD wi 0 - 1)) rest).2)
        else crawlAlter ws rest

/-- `myMaximumWeightDelta` update at the top of the non-crawl branch of
`alterWeights` (lines 173-178): draw a decrement in `[1, 65]`; if
`decrement + 2 > myMaximumWeightDelta` reset to 65535, else subtract. -/
def nextMaximumWeightDelta (m r : Nat) : Nat :=
  let weightDeltaDelta := r % MaximumWeightDeltaDelta + 1
  if m < weightDeltaDelta + 2 then MaximumWeightDelta else m - weightDeltaDelta

/-- Non-crawl branch of `alterWeights` (lines 180-208): each selected
non-saturated weight moves in its direction by a random magnitude in
`[1, myMaximumWeightDelta]`, saturating at the `int16_t` bounds.  Returns
the `noWeightWasAltered` flag, the new weights and the final int cursor. -/
def grossAlter (O : RandomOracle) (delta : Nat) : List Int → Nat → List (Nat × Bool) → Bool × List Int × Nat
  | ws, ic, [] => (true, ws, ic)
  | ws, ic, (wi, dir) :: rest =>
      if dir then
        if ws.getD wi 0 < MaximumWeight then
          let newWeight := ws.getD wi 0 + ((O.ints ic % delta : Nat) : Int) + 1
          let r := grossAlter O delta
            (ws.set wi (if MaximumWeight ≤ newWeight then MaximumWeight else newWeight))
            (ic + 1) rest
          (false, r.2.1, r.2.2)
        else grossAlter O delta ws ic rest
      else
        if MinimumWeight < ws.getD wi 0 then
          let newWeight := ws.getD wi 0 - ((O.ints ic % delta : Nat) : Int) - 1
          let r := grossAlter O delta
            (ws.set wi (if newWeight ≤ MinimumWeight then MinimumWeight else newWeight))
            (ic + 1) rest
          (false, r.2.1, r.2.2)
        else grossAlter O delta ws ic rest

/-- `GeometricWeightsCrafter::alterWeights()` (lines 153-212).  Returns the
`noWeightWasAltered` flag and the new state. -/
def alterWeights (O : RandomOracle) (s : Crafter) : Bool × Crafter :=
  if s.crawl then
    let r := crawlAlter s.weights (s.alterIndexes.zip s.alterDirections)
    (r.1, { s with weights := r.2 })
  else
    let delta := nextMaximumWeightDelta s.maxWeightDelta (O.ints s.intCursor)
    let r := grossAlter O delta s.weights (s.intCursor + 1)
      (s.alterIndexes.zip s.alterDirections)
    (r.1, { s with weights := r.2.1, maxWeightDelta := delta, intCursor := r.2.2 })

/-- The `while (alterWeights()) randomizeAlterings();` retry loop of
`weightsImproved` / `weightsDidNotImprove`, with explicit fuel (the C++
loop is unbounded; it terminates as soon as one weight actually changes). -/
def alterRetry (O : RandomOracle) : Nat → Crafter → Option Crafter
  | 0, _ => none
  | f + 1, s =>
      let r := alterWeights O s
      if r.1 then alterRetry O f (randomizeAlterings O r.2) else some r.2

/-- `GeometricWeightsCrafter::weightsDidNotImprove()` (lines 248-285):
restore the best weights, transition on `(crawl, previouslyImproved)`
(re-randomize / flip directions / start crawling), then retry `alterWeights`
until a weight changes. -/
def weightsDidNotImprove (O : RandomOracle) (fuel : Nat) (s : Crafter) : Option Crafter :=
  let s1 := bringBackBestWeights s
  let s2 :=
    if s1.crawl then
      if s1.previouslyImproved then randomizeAlterings O s1
      else { s1 with alterDirections := s1.alterDirections.map not,
                     previouslyImproved := true }
    else
      if s1.previouslyImproved then { s1 with crawl := true, previouslyImproved := false }
      else randomizeAlterings O s1
  alterRetry O fuel s2

/-- Constructor chain `WeightsCrafter(weightsCount)` (SupervisedNetworksBases.hpp
lines 98-108, weights drawn as `rand % WeightsCardinality + MinimumWeight`)
followed by `GeometricWeightsCrafter(weightsCount)` (lines 83-91:
`rememberWeights(); randomizeAlterings();`). -/
def mkGeometricWeightsCrafter (O : RandomOracle) (n : Nat) : Crafter :=
  randomizeAlterings O
    { weightsCount := n
      weights := (List.range n).map
        (fun i => ((O.ints i % WeightsCardinality : Nat) : Int) + MinimumWeight)
      bestWeights := (List.range n).map
        (fun i => ((O.ints i % WeightsCardinality : Nat) : Int) + MinimumWeight)
      alterIndexes := []
      alterDirections := List.replicate n false
      pNumerator := 0
      maxWeightsInterval := 0
      maxWeightDelta := 0
      crawl := false
      previouslyImproved := false
      intCursor := n
      boolCursor := 0
      geomCursor := 0 }

/-- Invariant on a crafter state: weight buffers have the declared length,
and the alteration plan holds strictly increasing in-range indexes. -/
def CrafterInv (s : Crafter) : Prop :=
  s.weights.length = s.weightsCount ∧ s.bestWeights.length = s.weightsCount ∧
  List.Pairwise (· < ·) s.alterIndexes ∧ ∀ i ∈ s.alterIndexes, i < s.weightsCount

/-!  ## Crafter helper lemmas  -/

theorem getD_set_self {α : Type} (ws : List α) (i : Nat) (x d : α) (h : i < ws.length) :
    (ws.set i x).getD i d = x := by
  simp [List.getD_eq_getD_get?, List.getElem?_set_self, h]

theorem getD_set_ne {α : Type} (ws : List α) (i j : Nat) (x d : α) (h : i ≠ j) :
    (ws.set i x).getD j d = ws.getD j d := by
  simp [List.getD_eq_getD_get?, List.getElem?_set_ne h]

theorem crawlAlter_flag_true :
    ∀ (ws : List Int) (ps : List (Nat × Bool)),
      (crawlAlter ws ps).1 = true → (crawlAlter ws ps).2 = ws
  | _, [] => fun _ => rfl
  | ws, (wi, dir) :: rest => by
      simp only [crawlAlter]
      split_ifs with h1 h2 h3
      · simp
      · exact crawlAlter_flag_true ws rest
      · simp
      · exact crawlAlter_flag_true ws rest

theorem crawlAlter_length :
    ∀ (ws : List Int) (ps : List (Nat × Bool)),
      (crawlAlter ws ps).2.length = ws.length
  | _, [] => rfl
  | ws, (wi, dir) :: rest => by
      simp only [crawlAlter]
      split_ifs with h1 h2 h3 <;>
        simp [crawlAlter_length _ rest, List.length_set]

theorem crawlAlter_untouched :
    ∀ (ws : List Int) (ps : List (Nat × Bool)) (j : Nat),
      (∀ p ∈ ps, p.1 ≠ j) → (crawlAlter ws ps).2.getD j 0 = ws.getD j 0
  | _, [], _ => fun _ => rfl
  | ws, (wi, dir) :: rest, j => by
      intro hne
      have hwi : wi ≠ j := hne (wi, dir) (List.mem_cons_self _ _)
      have hrest : ∀ p ∈ rest, p.1 ≠ j := fun p hp => hne p (List.mem_cons_of_mem _ hp)
      simp only [crawlAlter]
      split_ifs with h1 h2 h3
      · rw [crawlAlter_untouched _ rest j hrest, getD_set_ne _ _ _ _ _ hwi]
      · exact crawlAlter_untouched ws rest j hrest
      · rw [crawlAlter_untouched _ rest j hrest, getD_set_ne _ _ _ _ _ hwi]
      · exact crawlAlter_untouched ws rest j hrest

theorem crawlAlter_changed :
    ∀ (ws : List Int) (ps : List (Nat × Bool)),
      List.Pairwise (fun p q => p.1 < q.1) ps →
      (∀ p ∈ ps, p.1 < ws.length) →
      (crawlAlter ws ps).1 = false → (crawlAlter ws ps).2 ≠ ws
  | ws, [], _, _ => by simp [crawlAlter]
  | ws, (wi, dir) :: rest, hpw, hbnd => by
      have hwlt : wi < ws.length := hbnd (wi, dir) (List.mem_cons_self _ _)
      have hrest_ne : ∀ p ∈ rest, p.1 ≠ wi := by
        intro p hp
        have := (List.pairwise_cons.mp hpw).1 p hp
        omega
      have hpw' := (List.pairwise_cons.mp hpw).2
      have hbnd' : ∀ p ∈ rest, p.1 < ws.length :=
        fun p hp => hbnd p (List.mem_cons_of_mem _ hp)
      simp only [crawlAlter]
      split_ifs with h1 h2 h3
      · intro _ heq
        have hval : (crawlAlter (ws.set wi (ws.getD wi 0 + 1)) rest).2.getD wi 0
            = ws.getD wi 0 + 1 := by
          rw [crawlAlter_untouched _ rest wi hrest_ne, getD_set_self _ _ _ _ hwlt]
        rw [heq] at hval
        omega
      · intro hf
        exact crawlAlter_changed ws rest hpw' hbnd' hf
      · intro _ heq
        have hval : (crawlAlter (ws.set wi (ws.getD wi 0 - 1)) rest).2.getD wi 0
            = ws.getD wi 0 - 1 := by
          rw [crawlAlter_untouched _ rest wi hrest_ne, getD_set_self _ _ _ _ hwlt]
        rw [heq] at hval
        omega
      · intro hf
        exact crawlAlter_changed ws rest hpw' hbnd' hf

theorem grossAlter_flag_true (O : RandomOracle) (delta : Nat) :
    ∀ (ws : List Int) (ic : Nat) (ps : List (Nat × Bool)),
      (grossAlter O delta ws ic ps).1 = true → (grossAlter O delta ws ic ps).2.1 = ws
  | _, _, [] => fun _ => rfl
  | ws, ic, (wi, dir) :: rest => by
      simp only [grossAlter]
      split_ifs <;>
        first
          | exact fun h => h.elim
          | exact grossAlter_flag_true O delta ws ic rest
          | (intro h; exact absurd h (by simp))

theorem grossAlter_length (O : RandomOracle) (delta : Nat) :
    ∀ (ws : List Int) (ic : Nat) (ps : List (Nat × Bool)),
      (grossAlter O delta ws ic ps).2.1.length = ws.length
  | _, _, [] => rfl
  | ws, ic, (wi, dir) :: rest => by
      simp only [grossAlter]
      split_ifs with h1 h2 h3 <;>
        simp [grossAlter_length O delta _ _ rest, List.length_set]

theorem grossAlter_untouched (O : RandomOracle) (delta : Nat) :
    ∀ (ws : List Int) (ic : Nat) (ps : List (Nat × Bool)) (j : Nat),
      (∀ p ∈ ps, p.1 ≠ j) →
      (grossAlter O delta ws ic ps).2.1.getD j 0 = ws.getD j 0
  | _, _, [], _ => fun _ => rfl
  | ws, ic, (wi, dir) :: rest, j => by
      intro hne
      have hwi : wi ≠ j := hne (wi, dir) (List.mem_cons_self _ _)
      have hrest : ∀ p ∈ rest, p.1 ≠ j := fun p hp => hne p (List.mem_cons_of_mem _ hp)
      simp only [grossAlter]
      split_ifs <;>
        first
          | exact grossAlter_untouched O delta ws ic rest j hrest
          | (dsimp only
             rw [grossAlter_untouched O delta _ _ rest j hrest, getD_set_ne _ _ _ _ _ hwi])

theorem grossAlter_changed (O : RandomOracle) (delta : Nat) :
    ∀ (ws : List Int) (ic : Nat) (ps : List (Nat × Bool)),
      List.Pairwise (fun p q => p.1 < q.1) ps →
      (∀ p ∈ ps, p.1 < ws.length) →
      (grossAlter O delta ws ic ps).1 = false → (grossAlter O delta ws ic ps).2.1 ≠ ws
  | ws, ic, [], _, _ => by simp [grossAlter]
  | ws, ic, (wi, dir) :: rest, hpw, hbnd => by
      have hwlt : wi < ws.length := hbnd (wi, dir) (List.mem_cons_self _ _)
      have hrest_ne : ∀ p ∈ rest, p.1 ≠ wi := by
        intro p hp
        have := (List.pairwise_cons.mp hpw).1 p hp
        omega
      have hpw' := (List.pairwise_cons.mp hpw).2
      have hbnd' : ∀ p ∈ rest, p.1 < ws.length :=
        fun p hp => hbnd p (List.mem_cons_of_mem _ hp)
      have hk : (0 : Int) ≤ ((O.ints ic % delta : Nat) : Int) := Int.ofNat_nonneg _
      simp only [grossAlter]
      cases dir
      · simp only [Bool.false_eq_true, if_false]
        by_cases hg : MinimumWeight < ws.getD wi 0
        · rw [if_pos hg]
          intro _ heq
          dsimp only at heq
          have hval := grossAlter_untouched O delta
            (ws.set wi (if ws.getD wi 0 - ((O.ints ic % delta : Nat) : Int) - 1 ≤ MinimumWeight
                        then MinimumWeight
                        else ws.getD wi 0 - ((O.ints ic % delta : Nat) : Int) - 1))
            (ic + 1) rest wi hrest_ne
          rw [getD_set_self _ _ _ _ hwlt, heq] at hval
          split_ifs at hval <;> omega
        · rw [if_neg hg]
          exact grossAlter_changed O delta ws ic rest hpw' hbnd'
      · simp only [if_true]
        by_cases hg : ws.getD wi 0 < MaximumWeight
        · rw [if_pos hg]
          intro _ heq
          dsimp only at heq
          have hval := grossAlter_untouched O delta
            (ws.set wi (if MaximumWeight ≤ ws.getD wi 0 + ((O.ints ic % delta : Nat) : Int) + 1
                        then MaximumWeight
                        else ws.getD wi 0 + ((O.ints ic % delta : Nat) : Int) + 1))
            (ic + 1) rest wi hrest_ne
          rw [getD_set_self _ _ _ _ hwlt, heq] at hval
          split_ifs at hval <;> omega
        · rw [if_neg hg]
          exact grossAlter_changed O delta ws ic rest hpw' hbnd'

theorem collectAlterIndexes_mem_ge (O : RandomOracle) (n maxInt : Nat) :
    ∀ (f wi ic bc : Nat) (i : Nat),
      i ∈ (collectAlterIndexes O n maxInt f wi ic bc).1 → wi ≤ i
  | 0, _, _, _, _ => by simp [collectAlterIndexes]
  | f + 1, wi, ic, bc, i => by
      simp only [collectAlterIndexes]
      split_ifs with h
      · intro hmem
        rcases List.mem_cons.mp hmem with h1 | h1
        · omega
        · have := collectAlterIndexes_mem_ge O n maxInt f
            (wi + (O.ints ic % maxInt + 1)) (ic + 1) (bc + 1) i h1
          omega
      · simp

theorem collectAlterIndexes_mem_lt (O : RandomOracle) (n maxInt : Nat) :
    ∀ (f wi ic bc : Nat) (i : Nat),
      i ∈ (collectAlterIndexes O n maxInt f wi ic bc).1 → i < n
  | 0, _, _, _, _ => by simp [collectAlterIndexes]
  | f + 1, wi, ic, bc, i => by
      simp only [collectAlterIndexes]
      split_ifs with h
      · intro hmem
        rcases List.mem_cons.mp hmem with h1 | h1
        · omega
        · exact collectAlterIndexes_mem_lt O n maxInt f
            (wi + (O.ints ic % maxInt + 1)) (ic + 1) (bc + 1) i h1
      · simp

theorem collectAlterIndexes_pairwise (O : RandomOracle) (n maxInt : Nat) :
    ∀ (f wi ic bc : Nat),
      List.Pairwise (· < ·) (collectAlterIndexes O n maxInt f wi ic bc).1
  | 0, _, _, _ => by simp [collectAlterIndexes]
  | f + 1, wi, ic, bc => by
      simp only [collectAlterIndexes]
      split_ifs with h
      · refine List.pairwise_cons.mpr ⟨?_, collectAlterIndexes_pairwise O n maxInt f _ _ _⟩
        intro j hj
        have := collectAlterIndexes_mem_ge O n maxInt f
          (wi + (O.ints ic % maxInt + 1)) (ic + 1) (bc + 1) j hj
        omega
      · simp

theorem randomizeAlterings_preserved (O : RandomOracle) (s : Crafter) :
    (randomizeAlterings O s).weights = s.weights ∧
    (randomizeAlterings O s).bestWeights = s.bestWeights ∧
    (randomizeAlterings O s).weightsCount = s.weightsCount ∧
    (randomizeAlterings O s).maxWeightDelta = s.maxWeightDelta := by
  unfold randomizeAlterings
  dsimp only
  split_ifs <;> exact ⟨rfl, rfl, rfl, rfl⟩

theorem randomizeAlterings_plan (O : RandomOracle) (s : Crafter) :
    List.Pairwise (· < ·) (randomizeAlterings O s).alterIndexes ∧
    ∀ i ∈ (randomizeAlterings O s).alterIndexes, i < s.weightsCount := by
  unfold randomizeAlterings
  dsimp only
  split_ifs <;>
    first
      | exact ⟨collectAlterIndexes_pairwise O s.weightsCount _ _ _ _ _,
          fun i hi => collectAlterIndexes_mem_lt O s.weightsCount _ _ _ _ _ i hi⟩
      | exact ⟨List.pairwise_lt_range s.weightsCount,
          fun i hi => List.mem_range.mp hi⟩

theorem pairwise_fst_zip :
    ∀ (l1 : List Nat) (l2 : List Bool), List.Pairwise (· < ·) l1 →
      List.Pairwise (fun p q : Nat × Bool => p.1 < q.1) (l1.zip l2)
  | [], _, _ => by simp
  | _ :: _, [], _ => by simp
  | a :: l1, b :: l2, h => by
      rw [List.zip_cons_cons, List.pairwise_cons]
      refine ⟨?_, pairwise_fst_zip l1 l2 (List.pairwise_cons.mp h).2⟩
      intro p hp
      exact (List.pairwise_cons.mp h).1 p.1 (List.of_mem_zip hp).1

theorem alterWeights_preserved (O : RandomOracle) (s : Crafter) :
    (alterWeights O s).2.bestWeights = s.bestWeights ∧
    (alterWeights O s).2.weightsCount = s.weightsCount ∧
    (alterWeights O s).2.alterIndexes = s.alterIndexes ∧
    (alterWeights O s).2.alterDirections = s.alterDirections ∧
    (alterWeights O s).2.weights.length = s.weights.length := by
  unfold alterWeights
  dsimp only
  split
  · exact ⟨rfl, rfl, rfl, rfl, crawlAlter_length s.weights _⟩
  · exact ⟨rfl, rfl, rfl, rfl, grossAlter_length _ _ s.weights _ _⟩

theorem alterWeights_flag_true (O : RandomOracle) (s : Crafter) :
    (alterWeights O s).1 = true → (alterWeights O s).2.weights = s.weights := by
  unfold alterWeights
  dsimp only
  split
  · exact fun h => crawlAlter_flag_true s.weights _ h
  · exact fun h => grossAlter_flag_true _ _ s.weights _ _ h

theorem alterWeights_flag_false (O : RandomOracle) (s : Crafter)
    (hPW : List.Pairwise (· < ·) s.alterIndexes)
    (hB : ∀ i ∈ s.alterIndexes, i < s.weights.length) :
    (alterWeights O s).1 = false → (alterWeights O s).2.weights ≠ s.weights := by
  have hzipPW := pairwise_fst_zip s.alterIndexes s.alterDirections hPW
  have hzipB : ∀ p ∈ s.alterIndexes.zip s.alterDirections, p.1 < s.weights.length :=
    fun p hp => hB p.1 (List.of_mem_zip hp).1
  unfold alterWeights
  dsimp only
  split
  · exact crawlAlter_changed s.weights _ hzipPW hzipB
  · exact grossAlter_changed _ _ s.weights _ _ hzipPW hzipB

theorem alterRetry_current_ne_best (O : RandomOracle) :
    ∀ (fuel : Nat) (s : Crafter), CrafterInv s → s.weights = s.bestWeights →
      ∀ s2, alterRetry O fuel s = some s2 → s2.weights ≠ s2.bestWeights
  | 0, _, _, _ => by simp [alterRetry]
  | fuel + 1, s, hInv, hEq => by
      intro s2
      simp only [alterRetry]
      obtain ⟨hL, hLB, hPW, hB⟩ := hInv
      obtain ⟨pB, pC, pI, pD, pL⟩ := alterWeights_preserved O s
      split_ifs with hflag
      · -- no weight changed: re-randomize and retry
        intro hrec
        have hW : (alterWeights O s).2.weights = s.weights := alterWeights_flag_true O s hflag
        obtain ⟨rW, rB, rC, _⟩ := randomizeAlterings_preserved O (alterWeights O s).2
        obtain ⟨rPW, rBnd⟩ := randomizeAlterings_plan O (alterWeights O s).2
        refine alterRetry_current_ne_best O fuel _ ⟨?_, ?_, rPW, ?_⟩ ?_ s2 hrec
        · rw [rW, hW, hL, rC, pC]
        · rw [rB, pB, hLB, rC, pC]
        · intro i hi
          have := rBnd i hi
          rw [rC]
          exact this
        · rw [rW, hW, rB, pB, hEq]
      · -- a weight changed: the current weights left the best snapshot
        intro hrec
        have hflag2 : (alterWeights O s).1 = false := by simpa using hflag
        have hs2 : (alterWeights O s).2 = s2 := by simpa using hrec
        have hne := alterWeights_flag_false O s hPW (by rw [hL]; exact hB) hflag2
        rw [← hs2, pB, ← hEq]
        exact hne 

theorem bringBackBestWeights_crawl (s : Crafter) :
    (bringBackBestWeights s).crawl = s.crawl := rfl

theorem bringBackBestWeights_previouslyImproved (s : Crafter) :
    (bringBackBestWeights s).previouslyImproved = s.previouslyImproved := rfl

theorem bringBackBestWeights_alterDirections (s : Crafter) :
    (bringBackBestWeights s).alterDirections = s.alterDirections := rfl

theorem randomize_restore_ready (O : RandomOracle) (s : Crafter) (hInv : CrafterInv s) :
    CrafterInv (randomizeAlterings O (bringBackBestWeights s)) ∧
    (randomizeAlterings O (bringBackBestWeights s)).weights =
      (randomizeAlterings O (bringBackBestWeights s)).bestWeights := by
  obtain ⟨hL, hLB, hPW, hB⟩ := hInv
  obtain ⟨rW, rB, rC, _⟩ := randomizeAlterings_preserved O (bringBackBestWeights s)
  obtain ⟨rPW, rBnd⟩ := randomizeAlterings_plan O (bringBackBestWeights s)
  have hbW : (bringBackBestWeights s).weights = s.bestWeights := rfl
  have hbB : (bringBackBestWeights s).bestWeights = s.bestWeights := rfl
  have hbC : (bringBackBestWeights s).weightsCount = s.weightsCount := rfl
  refine ⟨⟨?_, ?_, rPW, ?_⟩, ?_⟩
  · rw [rW, hbW, rC, hbC]; exact hLB
  · rw [rB, hbB, rC, hbC]; exact hLB
  · intro i hi
    have := rBnd i hi
    rw [hbC] at this
    rw [rC, hbC]
    exact this
  · rw [rW, rB, hbW, hbB]

/-- Claim C6: `weightsDidNotImprove()` first restores `current ← best`, then
transitions per the `(crawl, previously_improved)` table: from
`(false, true)` it starts crawling with the same alter plan; from
`(true, false)` it flips every alter direction and sets
`previously_improved`; from `(false, false)` and `(true, true)` it
re-randomizes the alterings; and in every case `alterWeights` is retried
(re-randomizing whenever nothing changed), so a completed call leaves
`current ≠ best`. -/
theorem weightsDidNotImprove_fsm (O : RandomOracle) (fuel : Nat) (s : Crafter)
    (hInv : CrafterInv s) :
    (s.crawl = false → s.previouslyImproved = true →
       weightsDidNotImprove O fuel s =
         alterRetry O fuel
           { bringBackBestWeights s with crawl := true, previouslyImproved := false }) ∧
    (s.crawl = true → s.previouslyImproved = false →
       weightsDidNotImprove O fuel s =
         alterRetry O fuel
           { bringBackBestWeights s with
               alterDirections := s.alterDirections.map not,
               previouslyImproved := true }) ∧
    (s.crawl = s.previouslyImproved →
       weightsDidNotImprove O fuel s =
         alterRetry O fuel (randomizeAlterings O (bringBackBestWeights s))) ∧
    (∀ s2, weightsDidNotImprove O fuel s = some s2 → s2.weights ≠ s2.bestWeights) := by
  have eqA : s.crawl = false → s.previouslyImproved = true →
      weightsDidNotImprove O fuel s =
        alterRetry O fuel
          { bringBackBestWeights s with crawl := true, previouslyImproved := false } := by
    intro h1 h2
    simp only [weightsDidNotImprove, bringBackBestWeights_crawl,
      bringBackBestWeights_previouslyImproved, h1, h2, Bool.false_eq_true,
      if_false, if_true]
  have eqB : s.crawl = true → s.previouslyImproved = false →
      weightsDidNotImprove O fuel s =
        alterRetry O fuel
          { bringBackBestWeights s with
              alterDirections := s.alterDirections.map not,
              previouslyImproved := true } := by
    intro h1 h2
    simp only [weightsDidNotImprove, bringBackBestWeights_crawl,
      bringBackBestWeights_previouslyImproved, bringBackBestWeights_alterDirections,
      h1, h2, Bool.false_eq_true, if_false, if_true]
  have eqC : s.crawl = s.previouslyImproved →
      weightsDidNotImprove O fuel s =
        alterRetry O fuel (randomizeAlterings O (bringBackBestWeights s)) := by
    intro h
    cases hc : s.crawl
    · have hp : s.previouslyImproved = false := by rw [← h, hc]
      simp only [weightsDidNotImprove, bringBackBestWeights_crawl,
        bringBackBestWeights_previouslyImproved, hc, hp, Bool.false_eq_true,
        if_false]
    · have hp : s.previouslyImproved = true := by rw [← h, hc]
      simp only [weightsDidNotImprove, bringBackBestWeights_crawl,
        bringBackBestWeights_previouslyImproved, hc, hp, if_true]
  refine ⟨eqA, eqB, eqC, ?_⟩
  intro s2 hs2
  obtain ⟨hL, hLB, hPW, hB⟩ := hInv
  by_cases hc : s.crawl = true <;> by_cases hp : s.previouslyImproved = true
  · -- (true, true): re-randomized
    rw [eqC (by rw [hc, hp])] at hs2
    obtain ⟨hI, hE⟩ := randomize_restore_ready O s ⟨hL, hLB, hPW, hB⟩
    exact alterRetry_current_ne_best O fuel _ hI hE s2 hs2
  · -- (true, false): directions flipped, same indexes
    have hp2 : s.previouslyImproved = false := by simpa using hp
    rw [eqB hc hp2] at hs2
    refine alterRetry_current_ne_best O fuel _ ?_ ?_ s2 hs2
    · exact ⟨hLB, hLB, hPW, hB⟩
    · rfl
  · -- (false, true): crawl started with the same plan
    have hc2 : s.crawl = false := by simpa using hc
    rw [eqA hc2 hp] at hs2
    refine alterRetry_current_ne_best O fuel _ ?_ ?_ s2 hs2
    · exact ⟨hLB, hLB, hPW, hB⟩
    · rfl
  · -- (false, false): re-randomized
    have hc2 : s.crawl = false := by simpa using hc
    have hp2 : s.previouslyImproved = false := by simpa using hp
    rw [eqC (by rw [hc2, hp2])] at hs2
    obtain ⟨hI, hE⟩ := randomize_restore_ready O s ⟨hL, hLB, hPW, hB⟩
    exact alterRetry_current_ne_best O fuel _ hI hE s2 hs2

/-- All-zero random oracle, used for concrete instantiations. -/
def OZero : RandomOracle where
  ints := fun _ => 0
  bools := fun _ => false
  geoms := fun _ => 0

/-- A concrete crafter state with one weight, in the `(crawl = false,
previously_improved = true)` configuration. -/
def exampleCrafter : Crafter where
  weightsCount := 1
  weights := [0]
  bestWeights := [5]
  alterIndexes := [0]
  alterDirections := [true]
  pNumerator := 0
  maxWeightsInterval := 0
  maxWeightDelta := 0
  crawl := false
  previouslyImproved := true
  intCursor := 0
  boolCursor := 0
  geomCursor := 0

theorem exampleCrafter_inv : CrafterInv exampleCrafter := by
  refine ⟨rfl, rfl, ?_, ?_⟩
  · simp [exampleCrafter]
  · intro i hi
    simp only [exampleCrafter] at hi ⊢
    simp at hi
    omega

/-- Witness for `weightsDidNotImprove_fsm` on `exampleCrafter` with the
all-zero oracle: the `(false, true)` row fires and the completed call
leaves `current ≠ best`. -/
theorem weightsDidNotImprove_fsm_witness :
    weightsDidNotImprove OZero 2 exampleCrafter =
      alterRetry OZero 2
        { bringBackBestWeights exampleCrafter with
            crawl := true, previouslyImproved := false } ∧
    ((weightsDidNotImprove OZero 2 exampleCrafter).getD exampleCrafter).weights ≠
      ((weightsDidNotImprove OZero 2 exampleCrafter).getD exampleCrafter).bestWeights := by
  have h := weightsDidNotImprove_fsm OZero 2 exampleCrafter exampleCrafter_inv
  refine ⟨h.1 rfl rfl, h.2.2.2 _ ?_⟩
  rfl

/-!  ## Claim C7: constructor behaviour  -/

theorem randomizeAlterings_flags (O : RandomOracle) (s : Crafter) :
    (randomizeAlterings O s).crawl = false ∧
    (randomizeAlterings O s).previouslyImproved = false := by
  unfold randomizeAlterings
  dsimp only
  split_ifs <;> exact ⟨rfl, rfl⟩

theorem randomizeAlterings_pNumerator (O : RandomOracle) (s : Crafter) :
    (randomizeAlterings O s).pNumerator =
      if s.pNumerator * AlteringsPNumeratorMultiplier < AlteringsMinimumPNumerator
      then (s.weightsCount : ℚ) * AlteringsPNumeratorMultiplier
      else s.pNumerator * AlteringsPNumeratorMultiplier := by
  unfold randomizeAlterings
  dsimp only
  split_ifs <;> rfl

/-- Counterexample to claim C7: immediately after construction the current
weights EQUAL the best snapshot — the constructor performs
`rememberWeights(); randomizeAlterings();` but never calls `alterWeights`. -/
theorem mkGeometricWeightsCrafter_current_eq_best :
    (mkGeometricWeightsCrafter OZero 1).weights =
      (mkGeometricWeightsCrafter OZero 1).bestWeights := by
  unfold mkGeometricWeightsCrafter
  rw [(randomizeAlterings_preserved OZero _).1,
    (randomizeAlterings_preserved OZero _).2.1]

/-- Claim C7 (amended): after constructing a `GeometricWeightsCrafter` with
`n` weights, every current weight lies in `[-32768, 32767]` (drawn as
`rand % 65536 + MinimumWeight`), `best` is a snapshot equal to `current`,
`p_numerator` and `max_weight_delta` started at 0 (after the constructor's
`randomize_alterings()` the P numerator is `0.99·n` and `max_weight_delta`
is still 0, with `crawl = previously_improved = false`); the constructor
does NOT call `alter()`, so `current = best` after construction. -/
theorem mkGeometricWeightsCrafter_spec (O : RandomOracle) (n : Nat) :
    (∀ x ∈ (mkGeometricWeightsCrafter O n).weights,
        MinimumWeight ≤ x ∧ x ≤ MaximumWeight) ∧
    (mkGeometricWeightsCrafter O n).bestWeights =
      (mkGeometricWeightsCrafter O n).weights ∧
    (mkGeometricWeightsCrafter O n).maxWeightDelta = 0 ∧
    (mkGeometricWeightsCrafter O n).pNumerator =
      (n : ℚ) * AlteringsPNumeratorMultiplier ∧
    (mkGeometricWeightsCrafter O n).crawl = false ∧
    (mkGeometricWeightsCrafter O n).previouslyImproved = false := by
  unfold mkGeometricWeightsCrafter
  obtain ⟨rW, rB, _, rM⟩ := randomizeAlterings_preserved O _
  obtain ⟨rc, rp⟩ := randomizeAlterings_flags O _
  refine ⟨?_, ?_, ?_, ?_, rc, rp⟩
  · intro x hx
    rw [rW] at hx
    simp only [List.mem_map, List.mem_range] at hx
    obtain ⟨i, _, rfl⟩ := hx
    have h1 : O.ints i % WeightsCardinality < WeightsCardinality :=
      Nat.mod_lt _ (by norm_num [WeightsCardinality])
    simp only [MinimumWeight, MaximumWeight, WeightsCardinality] at *
    omega
  · rw [rW, rB]
  · rw [rM]
  · rw [randomizeAlterings_pNumerator]
    norm_num [AlteringsPNumeratorMultiplier, AlteringsMinimumPNumerator]

/-!  ## Claim C10: `myMaximumWeightDelta` update and magnitude draws  -/

/-- Claim C10: in the non-crawl branch of `alterWeights`, after the
max-weight-delta update the new `myMaximumWeightDelta` lies in
`[2, 65535]`; hence the per-index magnitude draws `rand % delta + 1` never
divide by zero and always land in `[1, delta]`. -/
theorem alterWeights_maxWeightDelta_spec (O : RandomOracle) (s : Crafter) (r2 : Nat)
    (hcrawl : s.crawl = false) (hm : s.maxWeightDelta ≤ 65535) :
    (alterWeights O s).2.maxWeightDelta =
      nextMaximumWeightDelta s.maxWeightDelta (O.ints s.intCursor) ∧
    2 ≤ nextMaximumWeightDelta s.maxWeightDelta (O.ints s.intCursor) ∧
    nextMaximumWeightDelta s.maxWeightDelta (O.ints s.intCursor) ≤ 65535 ∧
    nextMaximumWeightDelta s.maxWeightDelta (O.ints s.intCursor) ≠ 0 ∧
    1 ≤ r2 % nextMaximumWeightDelta s.maxWeightDelta (O.ints s.intCursor) + 1 ∧
    r2 % nextMaximumWeightDelta s.maxWeightDelta (O.ints s.intCursor) + 1 ≤
      nextMaximumWeightDelta s.maxWeightDelta (O.ints s.intCursor) := by
  constructor
  · unfold alterWeights
    dsimp only
    rw [if_neg (by rw [hcrawl]; exact Bool.false_ne_true)]
  have hdd : MaximumWeightDeltaDelta = 65 := by
    norm_num [MaximumWeightDeltaDelta, MaximumWeightDelta, WeightsCardinality]
  have hMW : MaximumWeightDelta = 65535 := by
    norm_num [MaximumWeightDelta, WeightsCardinality]
  unfold nextMaximumWeightDelta
  rw [hdd, hMW]
  dsimp only
  have hk65 : O.ints s.intCursor % 65 < 65 := Nat.mod_lt _ (by norm_num)
  split_ifs with h
  · have hr : r2 % 65535 < 65535 := Nat.mod_lt _ (by norm_num)
    omega
  · have hpos : 0 < s.maxWeightDelta - (O.ints s.intCursor % 65 + 1) := by omega
    have hr := Nat.mod_lt r2 hpos
    omega

/-- Witness for `alterWeights_maxWeightDelta_spec` on `exampleCrafter`
(whose `maxWeightDelta` is 0, forcing the reset to 65535). -/
theorem alterWeights_maxWeightDelta_spec_witness :
    (alterWeights OZero exampleCrafter).2.maxWeightDelta =
      nextMaximumWeightDelta exampleCrafter.maxWeightDelta
        (OZero.ints exampleCrafter.intCursor) ∧
    2 ≤ nextMaximumWeightDelta exampleCrafter.maxWeightDelta
        (OZero.ints exampleCrafter.intCursor) :=
  have h := alterWeights_maxWeightDelta_spec OZero exampleCrafter 0 rfl (by decide)
  ⟨h.1, h.2.1⟩

/-!
## `SupervisedNetworkEvent::buildMatrixDigraphs` (SupervisedNetworksBases.hpp lines 400-526)

The event file is a byte list.  The header holds four little-endian
`uint32_t` values; each matrix section holds `name_size` name bytes
(NUL-terminated read) followed by `rows*cols` little-endian `uint16_t`
inputs.  `rows*cols` is computed in `uint32_t` (wraps mod `2^32`), and the
required file size in `size_t` (wraps mod `2^64`), exactly as the source's
`requiredEventFileSize` expression does.
-/

/-- One matrix digraph as built by the loader (name up to the first NUL,
dimensions, decoded `uint16_t` inputs). -/
structure MatrixRec where
  name : List Nat
  rowsCount : Nat
  columnsCount : Nat
  inputs : List Nat
deriving DecidableEq

/-- Observable state of a `SupervisedNetworkEvent`: the digraph slot list
(`myMatrixDigraphPointers`, `none` = null pointer), the desired index and
the desired matrix name. -/
structure EventState where
  digraphs : List (Option MatrixRec)
  desiredIndex : Nat
  desiredName : List Nat
deriving DecidableEq

/-- Little-endian `uint32_t` at byte offset `p` (reads past the end give 0). -/
def u32leAt (file : List Nat) (p : Nat) : Nat :=
  file.getD p 0 + 256 * (file.getD (p + 1) 0 +
    256 * (file.getD (p + 2) 0 + 256 * file.getD (p + 3) 0))

/-- Decode consecutive little-endian `uint16_t` values. -/
def decodeU16s : List Nat → List Nat
  | b0 :: b1 :: rest => (b0 + 256 * b1) :: decodeU16s rest
  | _ => []

/-- The matrix name read at `pos`: `name_size` raw bytes cut at the first
NUL (the `matrixNameCString` buffer keeps a trailing 0). -/
def sectionName (file : List Nat) (pos nameSize : Nat) : List Nat :=
  ((file.drop pos).take nameSize).takeWhile (fun b => b != 0)

/-- Matrix-building loop of `buildMatrixDigraphs` (lines 481-514): for each
remaining section read the name bytes, build the digraph, read its inputs,
and track the desired matrix index, failing on a short read or on a second
name match.  Returns (success, digraph slots, desired index). -/
def loadLoop (desired file : List Nat) (rows cols nameSize inCount : Nat) :
    Nat → Nat → Nat → List (Option MatrixRec) → Nat →
      Bool × List (Option MatrixRec) × Nat
  | 0, _, _, digs, dIdx => (true, digs, dIdx)
  | c + 1, idx, pos, digs, dIdx =>
      if pos + nameSize ≤ file.length then
        let matrixName := sectionName file pos nameSize
        if pos + (nameSize + 2 * inCount) ≤ file.length then
          let d : MatrixRec :=
            { name := matrixName, rowsCount := rows, columnsCount := cols,
              inputs := decodeU16s ((file.drop (pos + nameSize)).take (2 * inCount)) }
          let digs2 := digs.set idx (some d)
          if matrixName = desired then
            if dIdx = InvalidIndex then
              loadLoop desired file rows cols nameSize inCount c (idx + 1)
                (pos + (nameSize + 2 * inCount)) digs2 idx
            else (false, digs2, dIdx)
          else
            loadLoop desired file rows cols nameSize inCount c (idx + 1)
              (pos + (nameSize + 2 * inCount)) digs2 dIdx
        else
          -- Short inputs read: the slot already holds the digraph (its name
          -- not yet assigned, its buffer contents unspecified after the
          -- failed read, modelled by the truncated bytes).
          let dFail : MatrixRec :=
            { name := [], rowsCount := rows, columnsCount := cols,
              inputs := decodeU16s ((file.drop (pos + nameSize)).take (2 * inCount)) }
          (false, digs.set idx (some dFail), dIdx)
      else (false, digs, dIdx)

/-- `SupervisedNetworkEvent::buildMatrixDigraphs`: store the desired name
and clear the event, validate the header and the file size (with the
source's `uint32_t`/`size_t` wrap-around), resize the slot list, run the
matrix loop, and finally require that the desired matrix was found.  The
pre-call state `pre` is discarded up front by `clearMatrixDigraphs()`. -/
def buildMatrixDigraphs (pre : EventState) (desired file : List Nat) :
    Bool × EventState :=
  let s0 : EventState := { digraphs := [], desiredIndex := InvalidIndex, desiredName := desired }
  if file.length < 16 then (false, s0) else
  let count := u32leAt file 0
  let rows := u32leAt file 4
  let cols := u32leAt file 8
  let nameSize := u32leAt file 12
  if count < 1 then (false, s0) else
  if rows < 2 then (false, s0) else
  if cols < 2 then (false, s0) else
  if nameSize < 1 then (false, s0) else
  let inCount := rows * cols % M32
  let required := (16 + count * (nameSize + 2 * inCount)) % M64
  if file.length ≠ required then (false, s0) else
  let r := loadLoop desired file rows cols nameSize inCount count 0 16
    (List.replicate count none) InvalidIndex
  let s2 : EventState := { digraphs := r.2.1, desiredIndex := r.2.2, desiredName := desired }
  if r.1 then
    if r.2.2 = InvalidIndex then (false, s2) else (true, s2)
  else (false, s2)

/-- Spec-side: do all `c` matrix sections, each of `step` bytes, starting
at `pos`, fit in the file? -/
def sectionsFitFrom (len step : Nat) : Nat → Nat → Bool
  | _, 0 => true
  | pos, c + 1 => decide (pos + step ≤ len) && sectionsFitFrom len step (pos + step) c

/-- Spec-side: number of sections among the `c` sections starting at `pos`
whose (NUL-cut) name equals the desired name. -/
def matchCountFrom (desired file : List Nat) (nameSize step : Nat) : Nat → Nat → Nat
  | _, 0 => 0
  | pos, c + 1 =>
      (if sectionName file pos nameSize = desired then 1 else 0) +
      matchCountFrom desired file nameSize step (pos + step) c

theorem sectionsFitFrom_iff (len step : Nat) :
    ∀ (c pos : Nat), sectionsFitFrom len step pos c = true ↔ (c = 0 ∨ pos + c * step ≤ len)
  | 0, pos => by simp [sectionsFitFrom]
  | c + 1, pos => by
      simp only [sectionsFitFrom, Bool.and_eq_true, decide_eq_true_eq,
        sectionsFitFrom_iff len step c (pos + step)]
      rw [Nat.succ_mul]
      constructor
      · rintro ⟨h1, h2 | h2⟩
        · subst h2
          right
          simpa using h1
        · right; omega
      · rintro (h | h)
        · exact absurd h (Nat.succ_ne_zero c)
        · exact ⟨by omega, Or.inr (by omega)⟩

theorem loadLoop_success_spec (desired file : List Nat) (rows cols nameSize inCount : Nat) :
    ∀ (c idx pos : Nat) (digs : List (Option MatrixRec)) (dIdx : Nat),
      idx + c ≤ InvalidIndex →
      (((loadLoop desired file rows cols nameSize inCount c idx pos digs dIdx).1 = true ↔
          (sectionsFitFrom file.length (nameSize + 2 * inCount) pos c = true ∧
           matchCountFrom desired file nameSize (nameSize + 2 * inCount) pos c +
             (if dIdx = InvalidIndex then 0 else 1) ≤ 1)) ∧
       ((loadLoop desired file rows cols nameSize inCount c idx pos digs dIdx).1 = true →
          ((loadLoop desired file rows cols nameSize inCount c idx pos digs dIdx).2.2 =
              InvalidIndex ↔
            (dIdx = InvalidIndex ∧
             matchCountFrom desired file nameSize (nameSize + 2 * inCount) pos c = 0))))
  | 0, idx, pos, digs, dIdx, _ => by
      refine ⟨⟨fun _ => ⟨rfl, ?_⟩, fun _ => rfl⟩, ?_⟩
      · simp only [matchCountFrom]
        split_ifs <;> omega
      · intro _
        constructor
        · intro h
          exact ⟨h, rfl⟩
        · rintro ⟨h, _⟩
          exact h
  | c + 1, idx, pos, digs, dIdx, hcap => by
      have hsm : (c + 1) * (nameSize + 2 * inCount) =
          c * (nameSize + 2 * inCount) + (nameSize + 2 * inCount) := by ring
      by_cases hname : pos + nameSize ≤ file.length
      · by_cases hinp : pos + (nameSize + 2 * inCount) ≤ file.length
        · by_cases hmatch : sectionName file pos nameSize = desired
          · by_cases hd : dIdx = InvalidIndex
            · -- first match: record the index and continue
              have hidx : ¬(idx = InvalidIndex) := by omega
              simp only [loadLoop, if_pos hname, if_pos hinp, if_pos hmatch, if_pos hd]
              obtain ⟨IH1, IH2⟩ := loadLoop_success_spec desired file rows cols nameSize
                inCount c (idx + 1) (pos + (nameSize + 2 * inCount))
                (digs.set idx (some
                  { name := sectionName file pos nameSize, rowsCount := rows,
                    columnsCount := cols,
                    inputs := decodeU16s ((file.drop (pos + nameSize)).take (2 * inCount)) }))
                idx (by omega)
              constructor
              · rw [IH1]
                simp only [sectionsFitFrom, matchCountFrom, if_pos hmatch, if_pos hd,
                  if_neg hidx, Bool.and_eq_true, decide_eq_true_eq]
                constructor
                · rintro ⟨h1, h2⟩
                  exact ⟨⟨hinp, h1⟩, by omega⟩
                · rintro ⟨⟨_, h1⟩, h2⟩
                  exact ⟨h1, by omega⟩
              · intro hT
                rw [IH2 hT]
                simp only [matchCountFrom, if_pos hmatch]
                constructor
                · rintro ⟨h1, _⟩
                  exact absurd h1 hidx
                · rintro ⟨_, h2⟩
                  omega
            · -- duplicate match: fail, keeping the first index
              simp only [loadLoop, if_pos hname, if_pos hinp, if_pos hmatch, if_neg hd]
              refine ⟨⟨fun h => absurd h (by simp), ?_⟩, fun h => absurd h (by simp)⟩
              rintro ⟨_, hm⟩
              simp only [matchCountFrom, if_pos hmatch] at hm
              omega
          · -- no match: continue with the same desired index
            simp only [loadLoop, if_pos hname, if_pos hinp, if_neg hmatch]
            obtain ⟨IH1, IH2⟩ := loadLoop_success_spec desired file rows cols nameSize
              inCount c (idx + 1) (pos + (nameSize + 2 * inCount))
              (digs.set idx (some
                { name := sectionName file pos nameSize, rowsCount := rows,
                  columnsCount := cols,
                  inputs := decodeU16s ((file.drop (pos + nameSize)).take (2 * inCount)) }))
              dIdx (by omega)
            constructor
            · rw [IH1]
              simp only [sectionsFitFrom, matchCountFrom, if_neg hmatch,
                Bool.and_eq_true, decide_eq_true_eq]
              constructor
              · rintro ⟨h1, h2⟩
                exact ⟨⟨hinp, h1⟩, by omega⟩
              · rintro ⟨⟨_, h1⟩, h2⟩
                exact ⟨h1, by omega⟩
            · intro hT
              rw [IH2 hT]
              simp only [matchCountFrom, if_neg hmatch]
              constructor
              · rintro ⟨h1, h2⟩
                exact ⟨h1, by omega⟩
              · rintro ⟨h1, h2⟩
                exact ⟨h1, by omega⟩
        · -- short inputs read
          simp only [loadLoop, if_pos hname, if_neg hinp]
          refine ⟨⟨fun h => absurd h (by simp), ?_⟩, fun h => absurd h (by simp)⟩
          rintro ⟨hsf, _⟩
          rw [sectionsFitFrom_iff] at hsf
          rcases hsf with h | h
          · exact absurd h (Nat.succ_ne_zero c)
          · omega
      · -- short name read
        simp only [loadLoop, if_neg hname]
        refine ⟨⟨fun h => absurd h (by simp), ?_⟩, fun h => absurd h (by simp)⟩
        rintro ⟨hsf, _⟩
        rw [sectionsFitFrom_iff] at hsf
        rcases hsf with h | h
        · exact absurd h (Nat.succ_ne_zero c)
        · omega

theorem u32leAt_lt (file : List Nat) (p : Nat) (hbytes : ∀ b ∈ file, b < 256) :
    u32leAt file p < M32 := by
  have hb : ∀ q, file.getD q 0 < 256 := by
    intro q
    rcases Nat.lt_or_ge q file.length with h | h
    · rw [List.getD_eq_getElem _ _ h]
      exact hbytes _ (List.getElem_mem h)
    · rw [List.getD_eq_default _ _ h]
      norm_num
  have h0 := hb p
  have h1 := hb (p + 1)
  have h2 := hb (p + 2)
  have h3 := hb (p + 3)
  simp only [u32leAt, M32]
  omega

/-- Claim C9 (amended): the loader succeeds iff the file holds a full
header, the header minimums hold (`matrices_count ≥ 1`, `rows ≥ 2`,
`cols ≥ 2`, `name_size ≥ 1`), the file size equals the required size AS THE
SOURCE COMPUTES IT (`rows*cols` wrapped to `uint32_t` and the total wrapped
to `size_t`), every matrix section can be read, and the designated winner
name matches exactly one candidate.  (The stated claim used the plain
un-wrapped size product; see the counterexample.) -/
theorem buildMatrixDigraphs_success_iff (pre : EventState) (desired file : List Nat)
    (hbytes : ∀ b ∈ file, b < 256) (hdesired : desired ≠ []) :
    (buildMatrixDigraphs pre desired file).1 = true ↔
      (16 ≤ file.length ∧
       1 ≤ u32leAt file 0 ∧ 2 ≤ u32leAt file 4 ∧ 2 ≤ u32leAt file 8 ∧
       1 ≤ u32leAt file 12 ∧
       file.length = (16 + u32leAt file 0 *
           (u32leAt file 12 + 2 * (u32leAt file 4 * u32leAt file 8 % M32))) % M64 ∧
       16 + u32leAt file 0 *
           (u32leAt file 12 + 2 * (u32leAt file 4 * u32leAt file 8 % M32)) ≤
         file.length ∧
       matchCountFrom desired file (u32leAt file 12)
           (u32leAt file 12 + 2 * (u32leAt file 4 * u32leAt file 8 % M32)) 16
           (u32leAt file 0) = 1) := by
  have hM : M32 = 4294967296 := rfl
  have hI : InvalidIndex = 4294967295 := rfl
  have hcnt := u32leAt_lt file 0 hbytes
  unfold buildMatrixDigraphs
  dsimp only
  by_cases h1 : file.length < 16
  · rw [if_pos h1]
    refine iff_of_false (by simp) ?_
    rintro ⟨hA, -, -, -, -, -, -, -⟩
    omega
  rw [if_neg h1]
  by_cases h2 : u32leAt file 0 < 1
  · rw [if_pos h2]
    refine iff_of_false (by simp) ?_
    rintro ⟨-, hB, -, -, -, -, -, -⟩
    omega
  rw [if_neg h2]
  by_cases h3 : u32leAt file 4 < 2
  · rw [if_pos h3]
    refine iff_of_false (by simp) ?_
    rintro ⟨-, -, hC, -, -, -, -, -⟩
    omega
  rw [if_neg h3]
  by_cases h4 : u32leAt file 8 < 2
  · rw [if_pos h4]
    refine iff_of_false (by simp) ?_
    rintro ⟨-, -, -, hD, -, -, -, -⟩
    omega
  rw [if_neg h4]
  by_cases h5 : u32leAt file 12 < 1
  · rw [if_pos h5]
    refine iff_of_false (by simp) ?_
    rintro ⟨-, -, -, -, hE, -, -, -⟩
    omega
  rw [if_neg h5]
  by_cases h6 : file.length ≠ (16 + u32leAt file 0 *
      (u32leAt file 12 + 2 * (u32leAt file 4 * u32leAt file 8 % M32))) % M64
  · rw [if_pos h6]
    refine iff_of_false (by simp) ?_
    rintro ⟨-, -, -, -, -, hF, -, -⟩
    exact h6 hF
  rw [if_neg h6]
  push_neg at h6
  obtain ⟨L1, L2⟩ := loadLoop_success_spec desired file (u32leAt file 4) (u32leAt file 8)
    (u32leAt file 12) (u32leAt file 4 * u32leAt file 8 % M32) (u32leAt file 0) 0 16
    (List.replicate (u32leAt file 0) none) InvalidIndex (by omega)
  rw [sectionsFitFrom_iff] at L1
  have hif : (if InvalidIndex = InvalidIndex then (0 : Nat) else 1) = 0 := by simp
  rw [hif] at L1
  cases hb : (loadLoop desired file (u32leAt file 4) (u32leAt file 8) (u32leAt file 12)
      (u32leAt file 4 * u32leAt file 8 % M32) (u32leAt file 0) 0 16
      (List.replicate (u32leAt file 0) none) InvalidIndex).1
  · -- loop failed
    rw [hb] at L1
    simp only [hb, Bool.false_eq_true, if_false]
    refine iff_of_false (by simp) ?_
    rintro ⟨-, -, -, -, -, -, hG, hH⟩
    have := L1.mpr ⟨Or.inr hG, by omega⟩
    exact absurd this (by simp)
  · -- loop succeeded
    rw [hb] at L1 L2
    have hfm := L1.mp rfl
    have hL2 := L2 rfl
    simp only [hb, if_true]
    by_cases hdi : (loadLoop desired file (u32leAt file 4) (u32leAt file 8) (u32leAt file 12)
        (u32leAt file 4 * u32leAt file 8 % M32) (u32leAt file 0) 0 16
        (List.replicate (u32leAt file 0) none) InvalidIndex).2.2 = InvalidIndex
    · -- winner missing
      have hm0 : matchCountFrom desired file (u32leAt file 12)
          (u32leAt file 12 + 2 * (u32leAt file 4 * u32leAt file 8 % M32)) 16
          (u32leAt file 0) = 0 := (hL2.mp hdi).2
      rw [if_pos hdi]
      refine iff_of_false (by simp) ?_
      rintro ⟨-, -, -, -, -, -, -, hH⟩
      omega
    · -- success
      rw [if_neg hdi]
      refine iff_of_true rfl ?_
      have hm1 : matchCountFrom desired file (u32leAt file 12)
          (u32leAt file 12 + 2 * (u32leAt file 4 * u32leAt file 8 % M32)) 16
          (u32leAt file 0) ≠ 0 := fun h0 => hdi (hL2.mpr ⟨rfl, h0⟩)
      have hfit : 16 + u32leAt file 0 *
          (u32leAt file 12 + 2 * (u32leAt file 4 * u32leAt file 8 % M32)) ≤
          file.length := by
        rcases hfm.1 with h | h
        · omega
        · exact h
      exact ⟨by omega, by omega, by omega, by omega, by omega, h6, hfit, by omega⟩

/-- An event with no digraphs and no desired matrix (a fresh
`SupervisedNetworkEvent`). -/
def emptyEvent : EventState where
  digraphs := []
  desiredIndex := InvalidIndex
  desiredName := []

/-- A well-formed 26-byte event file: 1 matrix, 2×2, name size 2,
name "A", inputs 1, 2, 3, 4. -/
def gFile : List Nat :=
  [1, 0, 0, 0, 2, 0, 0, 0, 2, 0, 0, 0, 2, 0, 0, 0, 65, 0, 1, 0, 2, 0, 3, 0, 4, 0]

/-- Like `gFile` but the matrix is named "B": loading it with desired name
"A" fails with the winner missing, after the digraph was already built. -/
def bFile : List Nat :=
  [1, 0, 0, 0, 2, 0, 0, 0, 2, 0, 0, 0, 2, 0, 0, 0, 66, 0, 1, 0, 2, 0, 3, 0, 4, 0]

/-- A 17-byte event file whose header states 1 matrix of 65536×65536 cells
with name size 1: `rows*cols` wraps to 0 in `uint32_t`, so the source
accepts the file. -/
def overflowFile : List Nat :=
  [1, 0, 0, 0, 0, 0, 1, 0, 0, 0, 1, 0, 1, 0, 0, 0, 65]

/-- Counterexample to claim C9: on `overflowFile` the load SUCCEEDS although
the file size (17) differs from the plain
`sizeof(Header) + matrices_count*(name_size + rows*cols*2)` = 16 + 1·(1 +
65536·65536·2), because the source computes `rows*cols` in `uint32_t`,
where 65536·65536 wraps to 0. -/
theorem buildMatrixDigraphs_plain_size_counterexample :
    (buildMatrixDigraphs emptyEvent [65] overflowFile).1 = true ∧
    u32leAt overflowFile 0 = 1 ∧ u32leAt overflowFile 4 = 65536 ∧
    u32leAt overflowFile 8 = 65536 ∧ u32leAt overflowFile 12 = 1 ∧
    overflowFile.length ≠ 16 + 1 * (1 + 65536 * 65536 * 2) := by
  refine ⟨by decide, by decide, by decide, by decide, by decide, by decide⟩

/-- Witness for `buildMatrixDigraphs_success_iff` on the well-formed
`gFile`: all conditions hold and the load succeeds. -/
theorem buildMatrixDigraphs_success_iff_witness :
    (buildMatrixDigraphs emptyEvent [65] gFile).1 = true := by
  rw [buildMatrixDigraphs_success_iff emptyEvent [65] gFile (by decide) (by decide)]
  decide

theorem loadLoop_full (desired file : List Nat) (rows cols nameSize inCount : Nat) :
    ∀ (c idx pos : Nat) (digs : List (Option MatrixRec)) (dIdx : Nat),
      idx + c ≤ digs.length →
      ((loadLoop desired file rows cols nameSize inCount c idx pos digs dIdx).2.1.length =
        digs.length) ∧
      ((loadLoop desired file rows cols nameSize inCount c idx pos digs dIdx).1 = true →
        ((∀ j, idx ≤ j → j < idx + c →
            ∃ d : MatrixRec,
              (loadLoop desired file rows cols nameSize inCount c idx pos digs dIdx).2.1.getD
                  j none = some d ∧
                d.rowsCount = rows ∧ d.columnsCount = cols) ∧
         (∀ j, j < idx →
            (loadLoop desired file rows cols nameSize inCount c idx pos digs dIdx).2.1.getD
                j none = digs.getD j none) ∧
         ((loadLoop desired file rows cols nameSize inCount c idx pos digs dIdx).2.2 = dIdx ∨
          (idx ≤ (loadLoop desired file rows cols nameSize inCount c idx pos digs dIdx).2.2 ∧
           (loadLoop desired file rows cols nameSize inCount c idx pos digs dIdx).2.2 <
             idx + c))))
  | 0, idx, pos, digs, dIdx, _ => by
      refine ⟨rfl, fun _ => ⟨?_, fun _ _ => rfl, Or.inl rfl⟩⟩
      intro j hj1 hj2
      omega
  | c + 1, idx, pos, digs, dIdx, hlen => by
      have hidxlt : idx < digs.length := by omega
      by_cases hname : pos + nameSize ≤ file.length
      · by_cases hinp : pos + (nameSize + 2 * inCount) ≤ file.length
        · by_cases hmatch : sectionName file pos nameSize = desired
          · by_cases hd : dIdx = InvalidIndex
            · simp only [loadLoop, if_pos hname, if_pos hinp, if_pos hmatch, if_pos hd]
              obtain ⟨IHlen, IHfull⟩ := loadLoop_full desired file rows cols nameSize
                inCount c (idx + 1) (pos + (nameSize + 2 * inCount))
                (digs.set idx (some
                  { name := sectionName file pos nameSize, rowsCount := rows,
                    columnsCount := cols,
                    inputs := decodeU16s ((file.drop (pos + nameSize)).take (2 * inCount)) }))
                idx (by rw [List.length_set]; omega)
              refine ⟨by rw [IHlen, List.length_set], ?_⟩
              intro hT
              obtain ⟨hAll, hPres, hIdx⟩ := IHfull hT
              refine ⟨?_, ?_, ?_⟩
              · intro j hj1 hj2
                rcases Nat.eq_or_lt_of_le hj1 with hj | hj
                · refine ⟨⟨sectionName file pos nameSize, rows, cols,
                      decodeU16s ((file.drop (pos + nameSize)).take (2 * inCount))⟩,
                    ?_, rfl, rfl⟩
                  rw [← hj]
                  rw [hPres idx (by omega), getD_set_self _ _ _ _ hidxlt]
                · exact hAll j (by omega) (by omega)
              · intro j hj
                rw [hPres j (by omega), getD_set_ne _ _ _ _ _ (by omega)]
              · rcases hIdx with h | h
                · exact Or.inr ⟨by omega, by omega⟩
                · exact Or.inr ⟨by omega, by omega⟩
            · simp only [loadLoop, if_pos hname, if_pos hinp, if_pos hmatch, if_neg hd]
              refine ⟨by rw [List.length_set], fun h => absurd h (by simp)⟩
          · simp only [loadLoop, if_pos hname, if_pos hinp, if_neg hmatch]
            obtain ⟨IHlen, IHfull⟩ := loadLoop_full desired file rows cols nameSize
              inCount c (idx + 1) (pos + (nameSize + 2 * inCount))
              (digs.set idx (some
                { name := sectionName file pos nameSize, rowsCount := rows,
                  columnsCount := cols,
                  inputs := decodeU16s ((file.drop (pos + nameSize)).take (2 * inCount)) }))
              dIdx (by rw [List.length_set]; omega)
            refine ⟨by rw [IHlen, List.length_set], ?_⟩
            intro hT
            obtain ⟨hAll, hPres, hIdx⟩ := IHfull hT
            refine ⟨?_, ?_, ?_⟩
            · intro j hj1 hj2
              rcases Nat.eq_or_lt_of_le hj1 with hj | hj
              · refine ⟨⟨sectionName file pos nameSize, rows, cols,
                    decodeU16s ((file.drop (pos + nameSize)).take (2 * inCount))⟩,
                  ?_, rfl, rfl⟩
                rw [← hj]
                rw [hPres idx (by omega), getD_set_self _ _ _ _ hidxlt]
              · exact hAll j (by omega) (by omega)
            · intro j hj
              rw [hPres j (by omega), getD_set_ne _ _ _ _ _ (by omega)]
            · rcases hIdx with h | h
              · exact Or.inl h
              · exact Or.inr ⟨by omega, by omega⟩
        · simp only [loadLoop, if_pos hname, if_neg hinp]
          refine ⟨by rw [List.length_set], fun h => absurd h (by simp)⟩
      · simp only [loadLoop, if_neg hname]
        exact ⟨by simp, by simp⟩

/-- Counterexample to claim C8: load a good file into an event, then load a
failing file (winner missing) into the same event — the call reports an
error, yet the event's digraph list is NOT the pre-call one: the loader
cleared the event and left the digraphs built before the failure. -/
theorem buildMatrixDigraphs_failure_keeps_partial_state :
    (buildMatrixDigraphs (buildMatrixDigraphs emptyEvent [65] gFile).2 [65] bFile).1 =
      false ∧
    (buildMatrixDigraphs (buildMatrixDigraphs emptyEvent [65] gFile).2 [65] bFile).2.digraphs ≠
      (buildMatrixDigraphs emptyEvent [65] gFile).2.digraphs := by
  refine ⟨by decide, by decide⟩

/-- Claim C8 (amended): when the loader succeeds the event is fully
populated — the slot list has `matrices_count` entries, every slot holds a
digraph with the header's dimensions (hence all digraphs require the same
weights count), and the winner index is valid.  On failure the event does
NOT keep its pre-call state: it was cleared up front and may retain
partially built digraphs (see the counterexample). -/
theorem buildMatrixDigraphs_success_populates (pre : EventState) (desired file : List Nat)
    (hs : (buildMatrixDigraphs pre desired file).1 = true) :
    ((buildMatrixDigraphs pre desired file).2.digraphs.length = u32leAt file 0) ∧
    (∀ j < (buildMatrixDigraphs pre desired file).2.digraphs.length,
       ∃ d : MatrixRec,
         (buildMatrixDigraphs pre desired file).2.digraphs.getD j none = some d ∧
         d.rowsCount = u32leAt file 4 ∧ d.columnsCount = u32leAt file 8) ∧
    (buildMatrixDigraphs pre desired file).2.desiredIndex ≠ InvalidIndex ∧
    (buildMatrixDigraphs pre desired file).2.desiredIndex <
      (buildMatrixDigraphs pre desired file).2.digraphs.length ∧
    (∀ j k, j < (buildMatrixDigraphs pre desired file).2.digraphs.length →
       k < (buildMatrixDigraphs pre desired file).2.digraphs.length →
       ∀ dj dk, (buildMatrixDigraphs pre desired file).2.digraphs.getD j none = some dj →
         (buildMatrixDigraphs pre desired file).2.digraphs.getD k none = some dk →
         requiredWeightsCount dj.rowsCount dj.columnsCount =
           requiredWeightsCount dk.rowsCount dk.columnsCount) := by
  unfold buildMatrixDigraphs at hs ⊢
  dsimp only at hs ⊢
  split_ifs at hs with g1 g2 g3 g4 g5 g6 g7 g8
  all_goals try exact absurd hs (by decide)
  rw [if_neg g1, if_neg g2, if_neg g3, if_neg g4, if_neg g5, if_neg g6, if_pos g7,
    if_neg g8]
  dsimp only
  -- g7 : loop flag = true, g8 : final index ≠ InvalidIndex (negated split)
  obtain ⟨Flen, Ffull⟩ := loadLoop_full desired file (u32leAt file 4) (u32leAt file 8)
    (u32leAt file 12) (u32leAt file 4 * u32leAt file 8 % M32) (u32leAt file 0) 0 16
    (List.replicate (u32leAt file 0) none) InvalidIndex
    (by rw [List.length_replicate]; omega)
  obtain ⟨hAll, _, hIdx⟩ := Ffull g7
  have hlenR : (loadLoop desired file (u32leAt file 4) (u32leAt file 8) (u32leAt file 12)
      (u32leAt file 4 * u32leAt file 8 % M32) (u32leAt file 0) 0 16
      (List.replicate (u32leAt file 0) none) InvalidIndex).2.1.length = u32leAt file 0 := by
    rw [Flen, List.length_replicate]
  refine ⟨hlenR, ?_, g8, ?_, ?_⟩
  · intro j hj
    rw [hlenR] at hj
    exact hAll j (Nat.zero_le j) (by omega)
  · rcases hIdx with h | h
    · exact absurd h g8
    · rw [hlenR]
      omega
  · intro j k hj hk dj dk hdj hdk
    rw [hlenR] at hj hk
    obtain ⟨dj2, hdj2, hrj, hcj⟩ := hAll j (Nat.zero_le j) (by omega)
    obtain ⟨dk2, hdk2, hrk, hck⟩ := hAll k (Nat.zero_le k) (by omega)
    rw [hdj] at hdj2
    rw [hdk] at hdk2
    obtain rfl : dj = dj2 := Option.some_injective _ hdj2
    obtain rfl : dk = dk2 := Option.some_injective _ hdk2
    rw [hrj, hcj, hrk, hck]

/-- Witness for `buildMatrixDigraphs_success_populates` on `gFile`. -/
theorem buildMatrixDigraphs_success_populates_witness :
    (buildMatrixDigraphs emptyEvent [65] gFile).2.digraphs.length = u32leAt gFile 0 ∧
    (buildMatrixDigraphs emptyEvent [65] gFile).2.desiredIndex ≠ InvalidIndex ∧
    (buildMatrixDigraphs emptyEvent [65] gFile).2.desiredIndex <
      (buildMatrixDigraphs emptyEvent [65] gFile).2.digraphs.length :=
  have h := buildMatrixDigraphs_success_populates emptyEvent [65] gFile (by decide)
  ⟨h.1, h.2.2.1, h.2.2.2.1⟩
